import Mathlib

/-!
Shallow embedding of the BVH builder and flattener of `src/bvh.rs`
(blob_game): the `Aabb` algebra, `merge_aabbs`, `cost`,
`find_split_index_and_cost`, `split_node`, `update_bvh` and
`push_node_to_buffer`, together with proofs of the structural claims
about them.

Modelling conventions:
* `f32` coordinates are modelled as `ℚ`; the structural claims under
  verification (tree shape, output length, child indices, split/axis
  selection, min/max folds) do not depend on floating-point rounding.
* The single `f32::INFINITY` sentinel that matters, the initial best
  cost in `find_split_index_and_cost`, is modelled as `⊤ : WithTop ℚ`.
  The infinite seed of the fold in `merge_aabbs` is absorbed by the
  first element on any nonempty slice, so the fold is modelled as a
  fold from the first element's contribution; on the empty slice the
  seed survives and the `assert_ne!(min.length(), f32::INFINITY)`
  fires, modelled as an `EmptyInput` error.
* Because coordinates are ℚ, the model's input domain is exactly the
  inputs with finite coordinates. The source has one more error path
  outside that domain: on a nonempty slice containing a non-finite
  bound, the merged corner can itself be non-finite and the length
  asserts of `merge_aabbs` abort. That path is unreachable for
  ℚ-valued inputs, so nothing proved here about nonempty inputs
  extends to non-finite bounds.
* `assert!` failures (aborts) are modelled as `Except.error`.
* `split_node` recurses on strictly shorter slices; to keep every
  definition kernel-reducible it is written with an explicit fuel
  argument (`splitNodeF`), with `split_node l = splitNodeF l.length l`;
  the fuel is always sufficient (`splitNodeF_fuel_irrel`).
* Rust's stable `sort_by` with the total order `f32::total_cmp` is
  modelled with `List.insertionSort` on `≤` of the ℚ key, which is
  stable for a total preorder and therefore produces the same ordering.
-/

namespace BlobBvh

/-- Entity identifiers (`bevy::Entity`) are opaque; only equality is used. -/
abbrev Entity := Nat

/-- Three-component vector (bevy `Vec3`), components modelled as `ℚ`. -/
structure Vec3 where
  x : ℚ
  y : ℚ
  z : ℚ
deriving DecidableEq

/-- `struct Aabb { min: Vec3, max: Vec3 }` — axis-aligned bounding box. -/
structure Aabb where
  min : Vec3
  max : Vec3
deriving DecidableEq

/-- `Aabb::centroid`: `min + (max - min) * 0.5`, componentwise. -/
def Aabb.centroid (a : Aabb) : Vec3 :=
  ⟨a.min.x + (a.max.x - a.min.x) * (1 / 2),
   a.min.y + (a.max.y - a.min.y) * (1 / 2),
   a.min.z + (a.max.z - a.min.z) * (1 / 2)⟩

/-- `Aabb::total_surface_area`: with extents `e = max - min`,
`e.x*e.y*2 + e.x*e.z*2 + e.y*e.z*2`. -/
def Aabb.total_surface_area (a : Aabb) : ℚ :=
  (a.max.x - a.min.x) * (a.max.y - a.min.y) * 2
    + (a.max.x - a.min.x) * (a.max.z - a.min.z) * 2
    + (a.max.y - a.min.y) * (a.max.z - a.min.z) * 2

/-- The componentwise `min ≤ max` invariant of a well-formed box. -/
def Aabb.wellFormed (a : Aabb) : Prop :=
  a.min.x ≤ a.max.x ∧ a.min.y ≤ a.max.y ∧ a.min.z ≤ a.max.z

instance (a : Aabb) : Decidable a.wellFormed := by
  unfold Aabb.wellFormed; infer_instance

/-- Failure of an `assert!` in the source, modelled as an error value.
The only assert reachable from the modelled entry points is the
empty-input one (`assert!(aabbs.len() > 0)` in `split_node`, and the
surviving-infinity assert of `merge_aabbs` on an empty slice). -/
inductive BvhError where
  | emptyInput
deriving DecidableEq

deriving instance DecidableEq for Except

/-- One iteration of the loop body of `merge_aabbs`:
`min.x = min.x.min(aabb.min.x.min(aabb.max.x))` and so on — note both
corners of the incoming box feed both accumulators (symmetric fold). -/
def mergeStep (acc : Aabb) (q : Entity × Aabb) : Aabb :=
  ⟨⟨min acc.min.x (min q.2.min.x q.2.max.x),
    min acc.min.y (min q.2.min.y q.2.max.y),
    min acc.min.z (min q.2.min.z q.2.max.z)⟩,
   ⟨max acc.max.x (max q.2.min.x q.2.max.x),
    max acc.max.y (max q.2.min.y q.2.max.y),
    max acc.max.z (max q.2.min.z q.2.max.z)⟩⟩

/-- The contribution of one element to the merge fold: the seed
`(INFINITY, -INFINITY)` updated by `mergeStep` with that element. -/
def mergeSeed (p : Entity × Aabb) : Aabb :=
  ⟨⟨min p.2.min.x p.2.max.x, min p.2.min.y p.2.max.y, min p.2.min.z p.2.max.z⟩,
   ⟨max p.2.min.x p.2.max.x, max p.2.min.y p.2.max.y, max p.2.min.z p.2.max.z⟩⟩

/-- `merge_aabbs`: fold `mergeStep` over the slice starting from the
infinite seed; on an empty slice the final
`assert_ne!(min.length(), f32::INFINITY)` fires (error), on a nonempty
slice the seed is absorbed by the first element. In the source the
same asserts also abort on a nonempty slice when a non-finite input
bound survives into a merged corner; with ℚ coordinates every value is
finite, so that error path is unreachable in this model and the model
errors only on the empty slice. -/
def merge_aabbs : List (Entity × Aabb) → Except BvhError Aabb
  | [] => .error .emptyInput
  | p :: rest => .ok (rest.foldl mergeStep (mergeSeed p))

/-- `cost`: split the slice at `index`, merge both halves, and weight
each half's surface area by its element count. The `0` fallback is
unreachable for the call sites' `1 ≤ index ≤ len - 1` (the source would
abort inside `merge_aabbs` otherwise). -/
def cost (aabbs : List (Entity × Aabb)) (index : Nat) : ℚ :=
  match merge_aabbs (aabbs.take index), merge_aabbs (aabbs.drop index) with
  | .ok la, .ok ra =>
      la.total_surface_area * (index : ℚ)
        + ra.total_surface_area * ((aabbs.length - index : Nat) : ℚ)
  | _, _ => 0

/-- Loop body of `find_split_index_and_cost`: keep the incumbent
unless the candidate's cost is a strict improvement. -/
def bestStep (aabbs : List (Entity × Aabb)) (best : Nat × WithTop ℚ) (i : Nat) :
    Nat × WithTop ℚ :=
  if ((cost aabbs i : ℚ) : WithTop ℚ) < best.2
  then (i, ((cost aabbs i : ℚ) : WithTop ℚ))
  else best

/-- `find_split_index_and_cost`: scan `i = 1 .. len-1` in increasing
order, starting from best = `(1, f32::INFINITY)`, updating only on a
strict cost improvement. -/
def find_split_index_and_cost (aabbs : List (Entity × Aabb)) : Nat × WithTop ℚ :=
  (List.range' 1 (aabbs.length - 1)).foldl (bestStep aabbs) (1, ⊤)

/-- The three coordinate axes. -/
inductive Axis where
  | x
  | y
  | z
deriving DecidableEq

/-- Centroid coordinate on a given axis (the sort key of `sort_by`). -/
def Aabb.centroidAxis (a : Aabb) (ax : Axis) : ℚ :=
  match ax with
  | .x => a.centroid.x
  | .y => a.centroid.y
  | .z => a.centroid.z

/-- `aabbs.sort_by(|a, b| a.1.centroid().AXIS.total_cmp(&b.1.centroid().AXIS))`:
stable sort by the centroid coordinate on `ax`. -/
def sortByCentroid (ax : Axis) (l : List (Entity × Aabb)) : List (Entity × Aabb) :=
  l.insertionSort (fun p q => p.2.centroidAxis ax ≤ q.2.centroidAxis ax)

/-- The axis selection of `split_node` (the `if`/`else if`/`else` chain):
x wins only when strictly cheaper than both y and z; otherwise y wins
when strictly cheaper than z; otherwise z. -/
def chooseAxis (xc yc zc : WithTop ℚ) : Axis :=
  if xc < yc ∧ xc < zc then .x
  else if yc < zc then .y
  else .z

/-- The best cost of the chosen axis. -/
def axisCost (ax : Axis) (xc yc zc : WithTop ℚ) : WithTop ℚ :=
  match ax with
  | .x => xc
  | .y => yc
  | .z => zc

/-- The per-axis phase of `split_node` on a slice of length ≥ 2: sort
by x and evaluate, re-sort by y and evaluate, re-sort by z and
evaluate (each sort acts on the result of the previous one, as the
in-place `sort_by` does), then choose the axis, re-sort the (now
z-sorted) slice by the winning axis and return it with the winning
split index. -/
def chosenSortedIdx (l : List (Entity × Aabb)) : List (Entity × Aabb) × Nat :=
  let xs := sortByCentroid .x l
  let xic := find_split_index_and_cost xs
  let ys := sortByCentroid .y xs
  let yic := find_split_index_and_cost ys
  let zs := sortByCentroid .z ys
  let zic := find_split_index_and_cost zs
  match chooseAxis xic.2 yic.2 zic.2 with
  | .x => (sortByCentroid .x zs, xic.1)
  | .y => (sortByCentroid .y zs, yic.1)
  | .z => (zs, zic.1)

/-- `BvhNode { aabb, kind }` with `BvhNodeKind::{Leaf, Branch}`
collapsed into a single inductive: a leaf stores the node's AABB and
the entity, a branch stores the node's AABB and the two owned children. -/
inductive BvhNode where
  | leaf (aabb : Aabb) (entity : Entity)
  | branch (aabb : Aabb) (left right : BvhNode)
deriving DecidableEq

/-- The `aabb` field of a node. -/
def BvhNode.aabb : BvhNode → Aabb
  | .leaf a _ => a
  | .branch a _ _ => a

/-- `split_node` with an explicit fuel argument (`l.length` is always
enough fuel; the fuel-exhausted arm is unreachable, see
`splitNodeF_fuel_irrel`). Mirrors the source: empty slice hits
`assert!(aabbs.len() > 0)`; a single element becomes a leaf carrying
that element's AABB and entity; otherwise choose the axis and split
index, recurse on the two halves of the re-sorted slice, and give the
branch the merge of the whole slice. -/
def splitNodeF : Nat → List (Entity × Aabb) → Except BvhError BvhNode
  | _, [] => .error .emptyInput
  | _, [p] => .ok (.leaf p.2 p.1)
  | 0, _ :: _ :: _ => .error .emptyInput
  | fuel + 1, p :: q :: rest => do
    let si := chosenSortedIdx (p :: q :: rest)
    let ln ← splitNodeF fuel (si.1.take si.2)
    let rn ← splitNodeF fuel (si.1.drop si.2)
    let a ← merge_aabbs si.1
    pure (.branch a ln rn)

/-- `split_node`. -/
def split_node (l : List (Entity × Aabb)) : Except BvhError BvhNode :=
  splitNodeF l.length l

/-- `update_bvh`: if the collected entity list is empty, log and return
without building (`none`: the previous `BvhTree` resource is left in
place); otherwise build a root via `split_node`. -/
def update_bvh (objects : List (Entity × Aabb)) : Option (Except BvhError BvhNode) :=
  if objects.isEmpty then none
  else some (split_node objects)

/-- `GpuNode { min, max, left, right }`: one fixed-size flat record. -/
structure GpuNode where
  min : Vec3
  max : Vec3
  left : Int
  right : Int
deriving DecidableEq

/-- `push_node_to_buffer`: pre-order serialization. A leaf appends one
record with `left = -1` and `right` the resolved buffer index (miss →
`-1`, via `unwrap_or(&EntityBufferIndex(-1))`). A branch appends a
placeholder, serializes the left then the right subtree, and patches
the placeholder's `left`/`right` with the indices where the two
subtrees started. The resolver models the
`Query<&EntityBufferIndex>::get` lookup. -/
def push_node_to_buffer (resolver : Entity → Option Int) :
    BvhNode → List GpuNode → List GpuNode
  | .leaf a e, buffer =>
      buffer ++ [⟨a.min, a.max, -1, (resolver e).getD (-1)⟩]
  | .branch a l r, buffer =>
      let ownIndex := buffer.length
      let buffer1 := buffer ++ [⟨a.min, a.max, 0, 0⟩]
      let leftIndex := buffer1.length
      let buffer2 := push_node_to_buffer resolver l buffer1
      let rightIndex := buffer2.length
      let buffer3 := push_node_to_buffer resolver r buffer2
      buffer3.set ownIndex ⟨a.min, a.max, (leftIndex : Int), (rightIndex : Int)⟩

/-- Number of nodes of a subtree. -/
def BvhNode.size : BvhNode → Nat
  | .leaf _ _ => 1
  | .branch _ l r => 1 + l.size + r.size

/-- Number of leaves of a subtree. -/
def BvhNode.numLeaves : BvhNode → Nat
  | .leaf _ _ => 1
  | .branch _ l r => l.numLeaves + r.numLeaves

/-- The subtree whose record lands at offset `k` of the pre-order
serialization of `n` (root at 0, then the whole left subtree, then the
whole right subtree). -/
def preorderAt : BvhNode → Nat → Option BvhNode
  | n, 0 => some n
  | .leaf _ _, _ + 1 => none
  | .branch _ l r, k + 1 =>
      if k < l.size then preorderAt l k else preorderAt r (k - l.size)

/-- The `(entity, aabb)` pairs at the leaves, left to right. -/
def leafPairs : BvhNode → List (Entity × Aabb)
  | .leaf a e => [(e, a)]
  | .branch _ l r => leafPairs l ++ leafPairs r

/-- The AABBs at the leaves, left to right. -/
def leafBoxes (n : BvhNode) : List Aabb :=
  (leafPairs n).map Prod.snd

/-- Every subtree of `n`, the node itself included. -/
def allNodes : BvhNode → List BvhNode
  | .leaf a e => [.leaf a e]
  | .branch a l r => .branch a l r :: (allNodes l ++ allNodes r)

/-- Componentwise min/max union of two boxes — the union operation the
spec describes ("componentwise min of all mins, max of all maxes"). -/
def unionOp (a b : Aabb) : Aabb :=
  ⟨⟨min a.min.x b.min.x, min a.min.y b.min.y, min a.min.z b.min.z⟩,
   ⟨max a.max.x b.max.x, max a.max.y b.max.y, max a.max.z b.max.z⟩⟩

/-- Accumulating step for the union of a list of boxes. -/
def unionAcc (acc : Option Aabb) (b : Aabb) : Option Aabb :=
  match acc with
  | none => some b
  | some a => some (unionOp a b)

/-- The exact componentwise min/max union of a list of boxes (`none`
for the empty list). This is the spec-side description of "the merge
(union) of the AABBs of all leaves". -/
def unionList (bs : List Aabb) : Option Aabb :=
  bs.foldl unionAcc none

/-- The record that the pre-order serialization emits at absolute
index `base` for the subtree rooted there. -/
def emittedRecord (resolver : Entity → Option Int) (base : Nat) : BvhNode → GpuNode
  | .leaf a e => ⟨a.min, a.max, -1, (resolver e).getD (-1)⟩
  | .branch a lc _ => ⟨a.min, a.max, ((base + 1 : Nat) : Int), ((base + 1 + lc.size : Nat) : Int)⟩

/-- Example box: the unit cube at the origin. -/
def boxA : Aabb := ⟨⟨0, 0, 0⟩, ⟨1, 1, 1⟩⟩

/-- Example box separated from `boxA` by the same amount on every
axis (so all three per-axis best costs coincide). -/
def boxB : Aabb := ⟨⟨2, 2, -3⟩, ⟨3, 3, -2⟩⟩

/-- Example input list with two objects. -/
def exInput : List (Entity × Aabb) := [(0, boxA), (1, boxB)]

/-- The tree `split_node` builds from `exInput`. -/
def exTree : BvhNode :=
  .branch ⟨⟨0, 0, -3⟩, ⟨3, 3, 1⟩⟩ (.leaf boxB 1) (.leaf boxA 0)

/-- Example box with inverted bounds (`min > max` on every component). -/
def invBox : Aabb := ⟨⟨1, 2, 3⟩, ⟨0, 0, 0⟩⟩

/-- Example input containing an inverted box. -/
def invInput : List (Entity × Aabb) := [(0, invBox), (1, boxA)]

/-- Example resolver that misses every entity. -/
def missResolver : Entity → Option Int := fun _ => none

/- ------------------------------------------------------------------ -/
/- Helper lemmas                                                       -/
/- ------------------------------------------------------------------ -/

theorem sortByCentroid_perm (ax : Axis) (l : List (Entity × Aabb)) :
    (sortByCentroid ax l).Perm l :=
  List.perm_insertionSort _ l

theorem length_sortByCentroid (ax : Axis) (l : List (Entity × Aabb)) :
    (sortByCentroid ax l).length = l.length :=
  (sortByCentroid_perm ax l).length_eq

theorem merge_aabbs_ok {l : List (Entity × Aabb)} (h : l ≠ []) :
    ∃ a, merge_aabbs l = .ok a := by
  cases l with
  | nil => exact absurd rfl h
  | cons p rest => exact ⟨_, rfl⟩

theorem mem_range'_bounds {m s n : Nat} (h : m ∈ List.range' s n) :
    s ≤ m ∧ m < s + n := by
  rw [List.mem_range'] at h
  obtain ⟨i, hi, rfl⟩ := h
  omega

theorem pairwise_lt_range' : ∀ (n s : Nat), List.Pairwise (· < ·) (List.range' s n)
  | 0, _ => List.Pairwise.nil
  | n + 1, s => by
    rw [List.range'_succ]
    exact List.Pairwise.cons (fun m hm => (mem_range'_bounds hm).1) (pairwise_lt_range' n (s + 1))

/-- Invariant of the strict-improvement fold: once the incumbent holds
a real cost, the fold returns the first index attaining the minimum
cost of the incumbent and the scanned candidates. -/
theorem foldl_bestStep_spec (aabbs : List (Entity × Aabb)) (js : List Nat) :
    ∀ b : Nat × WithTop ℚ,
      b.2 = ((cost aabbs b.1 : ℚ) : WithTop ℚ) →
      (∀ j ∈ js, b.1 < j) →
      List.Pairwise (· < ·) js →
      (js.foldl (bestStep aabbs) b).2
          = ((cost aabbs (js.foldl (bestStep aabbs) b).1 : ℚ) : WithTop ℚ) ∧
        ((js.foldl (bestStep aabbs) b).1 = b.1 ∨ (js.foldl (bestStep aabbs) b).1 ∈ js) ∧
        (js.foldl (bestStep aabbs) b).2 ≤ b.2 ∧
        (∀ j ∈ js, (js.foldl (bestStep aabbs) b).2 ≤ ((cost aabbs j : ℚ) : WithTop ℚ)) ∧
        ((js.foldl (bestStep aabbs) b).1 ≠ b.1 → (js.foldl (bestStep aabbs) b).2 < b.2) ∧
        (∀ j ∈ js, j < (js.foldl (bestStep aabbs) b).1 →
          (js.foldl (bestStep aabbs) b).2 < ((cost aabbs j : ℚ) : WithTop ℚ)) := by
  induction js with
  | nil =>
      intro b hb _ _
      refine ⟨hb, Or.inl rfl, le_refl _, ?_, ?_, ?_⟩ <;> simp
  | cons j js ih =>
      intro b hb hlt hpw
      obtain ⟨hj, hpw'⟩ := List.pairwise_cons.mp hpw
      rw [List.foldl_cons]
      by_cases hc : ((cost aabbs j : ℚ) : WithTop ℚ) < b.2
      · have hstep : bestStep aabbs b j = (j, ((cost aabbs j : ℚ) : WithTop ℚ)) := by
          simp [bestStep, hc]
        rw [hstep]
        obtain ⟨c1, c2, c3, c5, c6, c7⟩ :=
          ih (j, ((cost aabbs j : ℚ) : WithTop ℚ)) rfl hj hpw'
        refine ⟨c1, ?_, ?_, ?_, ?_, ?_⟩
        · rcases c2 with h | h
          · exact Or.inr (by rw [h]; exact List.mem_cons_self _ _)
          · exact Or.inr (List.mem_cons_of_mem _ h)
        · exact le_of_lt (lt_of_le_of_lt c3 hc)
        · intro k hk
          rcases List.mem_cons.mp hk with rfl | hk
          · exact c3
          · exact c5 k hk
        · intro _
          exact lt_of_le_of_lt c3 hc
        · intro k hk hkr
          rcases List.mem_cons.mp hk with rfl | hk
          · have hne : (js.foldl (bestStep aabbs)
                (k, ((cost aabbs k : ℚ) : WithTop ℚ))).1 ≠ k :=
              fun he => by rw [he] at hkr; exact lt_irrefl _ hkr
            exact c6 hne
          · exact c7 k hk hkr
      · have hstep : bestStep aabbs b j = b := by
          simp [bestStep, hc]
        rw [hstep]
        have hble : b.2 ≤ ((cost aabbs j : ℚ) : WithTop ℚ) := not_lt.mp hc
        obtain ⟨c1, c2, c3, c5, c6, c7⟩ :=
          ih b hb (fun k hk => hlt k (List.mem_cons_of_mem _ hk)) hpw'
        refine ⟨c1, ?_, c3, ?_, c6, ?_⟩
        · rcases c2 with h | h
          · exact Or.inl h
          · exact Or.inr (List.mem_cons_of_mem _ h)
        · intro k hk
          rcases List.mem_cons.mp hk with rfl | hk
          · exact le_trans c3 hble
          · exact c5 k hk
        · intro k hk hkr
          rcases List.mem_cons.mp hk with rfl | hk
          · rcases c2 with h | h
            · exact absurd hkr (by rw [h]; exact not_lt.mpr (le_of_lt (hlt k (List.mem_cons_self _ _))))
            · have hbr : b.1 < (js.foldl (bestStep aabbs) b).1 :=
                hlt _ (List.mem_cons_of_mem _ h)
              exact lt_of_lt_of_le
                (c6 (fun he => by rw [he] at hbr; exact lt_irrefl _ hbr)) hble
          · exact c7 k hk hkr

/-- Full characterization of `find_split_index_and_cost` on a slice of
length at least 2: the returned index is in `[1, len-1]`, the returned
cost is the cost at that index, that cost is minimal over the scanned
range, and any earlier index in the range has strictly larger cost. -/
theorem find_split_spec (aabbs : List (Entity × Aabb)) (h2 : 2 ≤ aabbs.length) :
    1 ≤ (find_split_index_and_cost aabbs).1 ∧
    (find_split_index_and_cost aabbs).1 ≤ aabbs.length - 1 ∧
    (find_split_index_and_cost aabbs).2
      = ((cost aabbs (find_split_index_and_cost aabbs).1 : ℚ) : WithTop ℚ) ∧
    (∀ j, 1 ≤ j → j ≤ aabbs.length - 1 →
      cost aabbs (find_split_index_and_cost aabbs).1 ≤ cost aabbs j) ∧
    (∀ j, 1 ≤ j → j < (find_split_index_and_cost aabbs).1 →
      cost aabbs (find_split_index_and_cost aabbs).1 < cost aabbs j) := by
  have hsplit : aabbs.length - 1 = (aabbs.length - 2) + 1 := by omega
  have hrange : List.range' 1 (aabbs.length - 1)
      = 1 :: List.range' 2 (aabbs.length - 2) := by
    rw [hsplit, List.range'_succ]
  have hfirst : bestStep aabbs (1, ⊤) 1 = (1, ((cost aabbs 1 : ℚ) : WithTop ℚ)) := by
    simp [bestStep]
  have hfold : find_split_index_and_cost aabbs
      = (List.range' 2 (aabbs.length - 2)).foldl (bestStep aabbs)
          (1, ((cost aabbs 1 : ℚ) : WithTop ℚ)) := by
    unfold find_split_index_and_cost
    rw [hrange, List.foldl_cons, hfirst]
  obtain ⟨c1, c2, c3, c5, c6, c7⟩ :=
    foldl_bestStep_spec aabbs (List.range' 2 (aabbs.length - 2))
      (1, ((cost aabbs 1 : ℚ) : WithTop ℚ)) rfl
      (fun j hj => (mem_range'_bounds hj).1)
      (pairwise_lt_range' _ _)
  have hub : ((List.range' 2 (aabbs.length - 2)).foldl (bestStep aabbs)
      (1, ((cost aabbs 1 : ℚ) : WithTop ℚ))).1 ≤ aabbs.length - 1 := by
    rcases c2 with h | h
    · omega
    · have := (mem_range'_bounds h).2
      omega
  rw [hfold]
  refine ⟨?_, hub, c1, ?_, ?_⟩
  · rcases c2 with h | h
    · rw [h]
    · exact le_of_lt (lt_of_lt_of_le one_lt_two (mem_range'_bounds h).1)
  · intro j hj1 hj2
    rw [← WithTop.coe_le_coe, ← c1]
    rcases Nat.lt_or_ge j 2 with hj | hj
    · have hj1' : j = 1 := by omega
      rw [hj1']
      exact c3
    · exact c5 j (List.mem_range'.mpr ⟨j - 2, by omega, by omega⟩)
  · intro j hj1 hjlt
    rw [← WithTop.coe_lt_coe, ← c1]
    rcases Nat.lt_or_ge j 2 with hj | hj
    · have hj1' : j = 1 := by omega
      subst hj1'
      have hne : ((List.range' 2 (aabbs.length - 2)).foldl (bestStep aabbs)
          (1, ((cost aabbs 1 : ℚ) : WithTop ℚ))).1 ≠ 1 := by omega
      exact c6 hne
    · exact c7 j (List.mem_range'.mpr ⟨j - 2, by omega, by omega⟩) hjlt

theorem chosenSortedIdx_perm (l : List (Entity × Aabb)) :
    (chosenSortedIdx l).1.Perm l := by
  unfold chosenSortedIdx
  dsimp only
  split
  · exact (sortByCentroid_perm _ _).trans ((sortByCentroid_perm _ _).trans
      ((sortByCentroid_perm _ _).trans (sortByCentroid_perm _ _)))
  · exact (sortByCentroid_perm _ _).trans ((sortByCentroid_perm _ _).trans
      ((sortByCentroid_perm _ _).trans (sortByCentroid_perm _ _)))
  · exact (sortByCentroid_perm _ _).trans ((sortByCentroid_perm _ _).trans
      (sortByCentroid_perm _ _))

theorem chosenSortedIdx_length (l : List (Entity × Aabb)) :
    (chosenSortedIdx l).1.length = l.length :=
  (chosenSortedIdx_perm l).length_eq

theorem chosenSortedIdx_idx (l : List (Entity × Aabb)) (h2 : 2 ≤ l.length) :
    1 ≤ (chosenSortedIdx l).2 ∧ (chosenSortedIdx l).2 ≤ l.length - 1 := by
  have hx : (sortByCentroid .x l).length = l.length := length_sortByCentroid _ _
  have hy : (sortByCentroid .y (sortByCentroid .x l)).length = l.length := by
    rw [length_sortByCentroid, hx]
  have hz : (sortByCentroid .z (sortByCentroid .y (sortByCentroid .x l))).length
      = l.length := by
    rw [length_sortByCentroid, hy]
  unfold chosenSortedIdx
  dsimp only
  split
  · obtain ⟨hb1, hb2, _⟩ := find_split_spec (sortByCentroid .x l) (by rw [hx]; exact h2)
    rw [hx] at hb2
    exact ⟨hb1, hb2⟩
  · obtain ⟨hb1, hb2, _⟩ :=
      find_split_spec (sortByCentroid .y (sortByCentroid .x l)) (by rw [hy]; exact h2)
    rw [hy] at hb2
    exact ⟨hb1, hb2⟩
  · obtain ⟨hb1, hb2, _⟩ :=
      find_split_spec (sortByCentroid .z (sortByCentroid .y (sortByCentroid .x l)))
        (by rw [hz]; exact h2)
    rw [hz] at hb2
    exact ⟨hb1, hb2⟩

theorem splitNodeF_fuel_irrel :
    ∀ (f₁ f₂ : Nat) (l : List (Entity × Aabb)),
      l.length ≤ f₁ → l.length ≤ f₂ → splitNodeF f₁ l = splitNodeF f₂ l := by
  intro f₁
  induction f₁ with
  | zero =>
      intro f₂ l h1 _
      cases l with
      | nil => cases f₂ <;> rfl
      | cons p rest => simp at h1
  | succ f ih =>
      intro f₂ l h1 h2
      match l with
      | [] => cases f₂ <;> rfl
      | [p] => cases f₂ <;> rfl
      | p :: q :: rest =>
        match f₂, h2 with
        | f₂' + 1, h2 =>
          have hlen := chosenSortedIdx_length (p :: q :: rest)
          have hidx := chosenSortedIdx_idx (p :: q :: rest) (by simp)
          have hll : (p :: q :: rest).length = rest.length + 2 := by simp
          have htake :
              ((chosenSortedIdx (p :: q :: rest)).1.take
                (chosenSortedIdx (p :: q :: rest)).2).length ≤ f := by
            rw [List.length_take, hlen]
            omega
          have htake' :
              ((chosenSortedIdx (p :: q :: rest)).1.take
                (chosenSortedIdx (p :: q :: rest)).2).length ≤ f₂' := by
            rw [List.length_take, hlen]
            omega
          have hdrop :
              ((chosenSortedIdx (p :: q :: rest)).1.drop
                (chosenSortedIdx (p :: q :: rest)).2).length ≤ f := by
            rw [List.length_drop, hlen]
            omega
          have hdrop' :
              ((chosenSortedIdx (p :: q :: rest)).1.drop
                (chosenSortedIdx (p :: q :: rest)).2).length ≤ f₂' := by
            rw [List.length_drop, hlen]
            omega
          simp only [splitNodeF]
          rw [ih f₂' _ htake htake', ih f₂' _ hdrop hdrop']

theorem max_right_comm' (a b c : ℚ) : max (max a b) c = max (max a c) b := by
  rw [max_assoc, max_comm b c, ← max_assoc]

theorem unionOp_comm (a b : Aabb) : unionOp a b = unionOp b a := by
  simp [unionOp, min_comm, max_comm]

theorem unionOp_right_comm (a x y : Aabb) :
    unionOp (unionOp a x) y = unionOp (unionOp a y) x := by
  simp [unionOp, min_right_comm, max_right_comm']

theorem unionAcc_right_comm (z : Option Aabb) (x y : Aabb) :
    unionAcc (unionAcc z x) y = unionAcc (unionAcc z y) x := by
  cases z with
  | none => simp [unionAcc, unionOp_comm]
  | some a => simp [unionAcc, unionOp_right_comm]

/-- The union of a list of boxes is invariant under permutation. -/
theorem unionList_perm {bs₁ bs₂ : List Aabb} (h : bs₁.Perm bs₂) :
    unionList bs₁ = unionList bs₂ :=
  h.foldl_eq' (fun x _ y _ z => unionAcc_right_comm z x y) none

theorem foldl_unionAcc_some (bs : List Aabb) :
    ∀ a : Aabb, bs.foldl unionAcc (some a) = some (bs.foldl unionOp a) := by
  induction bs with
  | nil => intro a; rfl
  | cons b bs ih => intro a; rw [List.foldl_cons, List.foldl_cons]; exact ih (unionOp a b)

theorem unionList_cons (b : Aabb) (bs : List Aabb) :
    unionList (b :: bs) = some (bs.foldl unionOp b) := by
  rw [unionList, List.foldl_cons]
  exact foldl_unionAcc_some bs b

/-- On a well-formed box the symmetric corner fold of `merge_aabbs`
coincides with the plain componentwise union. -/
theorem mergeStep_eq_unionOp (acc : Aabb) (q : Entity × Aabb) (hq : q.2.wellFormed) :
    mergeStep acc q = unionOp acc q.2 := by
  obtain ⟨h1, h2, h3⟩ := hq
  simp [mergeStep, unionOp, min_eq_left h1, min_eq_left h2, min_eq_left h3,
    max_eq_right h1, max_eq_right h2, max_eq_right h3]

theorem mergeSeed_eq (q : Entity × Aabb) (hq : q.2.wellFormed) :
    mergeSeed q = q.2 := by
  obtain ⟨h1, h2, h3⟩ := hq
  simp [mergeSeed, min_eq_left h1, min_eq_left h2, min_eq_left h3,
    max_eq_right h1, max_eq_right h2, max_eq_right h3]

theorem merge_foldl_eq_union (rest : List (Entity × Aabb)) :
    ∀ acc : Aabb, (∀ p ∈ rest, p.2.wellFormed) →
      rest.foldl mergeStep acc = (rest.map Prod.snd).foldl unionOp acc := by
  induction rest with
  | nil => intro acc _; rfl
  | cons q rest ih =>
      intro acc hwf
      rw [List.map_cons, List.foldl_cons, List.foldl_cons,
        mergeStep_eq_unionOp acc q (hwf q (List.mem_cons_self _ _))]
      exact ih _ (fun p hp => hwf p (List.mem_cons_of_mem _ hp))

/-- On an all-well-formed nonempty slice, `merge_aabbs` computes
exactly the componentwise union of the boxes. -/
theorem merge_aabbs_eq_unionList (p : Entity × Aabb) (rest : List (Entity × Aabb))
    (hwf : ∀ q ∈ p :: rest, q.2.wellFormed) :
    merge_aabbs (p :: rest) = .ok a ↔ unionList ((p :: rest).map Prod.snd) = some a := by
  rw [merge_aabbs, List.map_cons, unionList_cons,
    merge_foldl_eq_union rest (mergeSeed p) (fun q hq => hwf q (List.mem_cons_of_mem _ hq)),
    mergeSeed_eq p (hwf p (List.mem_cons_self _ _))]
  constructor
  · intro h
    injection h with h
    rw [h]
  · intro h
    injection h with h
    rw [h]

/-- Workhorse induction for `split_node`: on any nonempty input (with
enough fuel) the build succeeds, the leaves of the resulting tree are a
permutation of the input pairs, and — when every input box is
well-formed — every node's AABB is exactly the componentwise union of
the boxes at the leaves of its subtree. -/
theorem splitNodeF_main :
    ∀ (fuel : Nat) (l : List (Entity × Aabb)), l ≠ [] → l.length ≤ fuel →
      ∃ t, splitNodeF fuel l = .ok t ∧ (leafPairs t).Perm l ∧
        ((∀ p ∈ l, p.2.wellFormed) →
          ∀ n ∈ allNodes t, unionList (leafBoxes n) = some n.aabb) := by
  intro fuel
  induction fuel with
  | zero =>
      intro l hne hlen
      cases l with
      | nil => exact absurd rfl hne
      | cons p rest => simp at hlen
  | succ f ih =>
      intro l hne hlen
      match l with
      | [p] =>
          refine ⟨.leaf p.2 p.1, rfl, by simp [leafPairs], ?_⟩
          intro _ n hn
          simp only [allNodes, List.mem_singleton] at hn
          subst hn
          simp [leafBoxes, leafPairs, unionList, unionAcc, BvhNode.aabb]
      | p :: q :: rest =>
          have h2 : 2 ≤ (p :: q :: rest).length := by simp
          have hperm := chosenSortedIdx_perm (p :: q :: rest)
          have hSlen := chosenSortedIdx_length (p :: q :: rest)
          have hidx := chosenSortedIdx_idx (p :: q :: rest) h2
          have hLlen : (p :: q :: rest).length = rest.length + 2 := by simp
          have htakelen :
              ((chosenSortedIdx (p :: q :: rest)).1.take
                (chosenSortedIdx (p :: q :: rest)).2).length
                = (chosenSortedIdx (p :: q :: rest)).2 := by
            rw [List.length_take, hSlen]
            omega
          have hdroplen :
              ((chosenSortedIdx (p :: q :: rest)).1.drop
                (chosenSortedIdx (p :: q :: rest)).2).length
                = (p :: q :: rest).length - (chosenSortedIdx (p :: q :: rest)).2 := by
            rw [List.length_drop, hSlen]
          obtain ⟨tl, htl, hpl, hil⟩ :=
            ih ((chosenSortedIdx (p :: q :: rest)).1.take (chosenSortedIdx (p :: q :: rest)).2)
              (List.length_pos.mp (by rw [htakelen]; omega))
              (by rw [htakelen]; omega)
          obtain ⟨tr, htr, hpr, hir⟩ :=
            ih ((chosenSortedIdx (p :: q :: rest)).1.drop (chosenSortedIdx (p :: q :: rest)).2)
              (List.length_pos.mp (by rw [hdroplen]; omega))
              (by rw [hdroplen]; omega)
          have hSne : (chosenSortedIdx (p :: q :: rest)).1 ≠ [] :=
            List.length_pos.mp (by rw [hSlen]; omega)
          obtain ⟨a, ha⟩ := merge_aabbs_ok hSne
          have hp2 : (leafPairs tl ++ leafPairs tr).Perm (chosenSortedIdx (p :: q :: rest)).1 := by
            have h := hpl.append hpr
            rwa [List.take_append_drop] at h
          refine ⟨.branch a tl tr, ?_, ?_, ?_⟩
          · simp only [splitNodeF]
            rw [htl, htr, ha]
            rfl
          · exact (by simpa [leafPairs] using hp2.trans hperm)
          · intro hwf n hn
            have hwfS : ∀ p' ∈ (chosenSortedIdx (p :: q :: rest)).1, p'.2.wellFormed :=
              fun p' hp' => hwf p' (hperm.mem_iff.mp hp')
            have hwfl : ∀ p' ∈ (chosenSortedIdx (p :: q :: rest)).1.take
                (chosenSortedIdx (p :: q :: rest)).2, p'.2.wellFormed :=
              fun p' hp' => hwfS p' (List.take_subset _ _ hp')
            have hwfr : ∀ p' ∈ (chosenSortedIdx (p :: q :: rest)).1.drop
                (chosenSortedIdx (p :: q :: rest)).2, p'.2.wellFormed :=
              fun p' hp' => hwfS p' (List.drop_subset _ _ hp')
            simp only [allNodes, List.mem_cons, List.mem_append] at hn
            rcases hn with rfl | hn | hn
            · have huS : unionList ((chosenSortedIdx (p :: q :: rest)).1.map Prod.snd)
                  = some a := by
                cases hC : (chosenSortedIdx (p :: q :: rest)).1 with
                | nil => rw [hC] at ha; simp [merge_aabbs] at ha
                | cons s srest =>
                    rw [hC] at ha hwfS
                    exact (merge_aabbs_eq_unionList s srest hwfS).mp ha
              have hlb : leafBoxes (.branch a tl tr)
                  = (leafPairs tl ++ leafPairs tr).map Prod.snd := by
                simp [leafBoxes, leafPairs]
              rw [hlb, unionList_perm (hp2.map Prod.snd)]
              exact huS
            · exact hil hwfl n hn
            · exact hir hwfr n hn

theorem split_node_main (l : List (Entity × Aabb)) (hne : l ≠ []) :
    ∃ t, split_node l = .ok t ∧ (leafPairs t).Perm l ∧
      ((∀ p ∈ l, p.2.wellFormed) →
        ∀ n ∈ allNodes t, unionList (leafBoxes n) = some n.aabb) :=
  splitNodeF_main l.length l hne (le_refl _)

theorem split_node_ok_ne_nil {l : List (Entity × Aabb)} {t : BvhNode}
    (h : split_node l = .ok t) : l ≠ [] := by
  intro he
  subst he
  simp [split_node, splitNodeF] at h

theorem split_node_leafPairs_perm {l : List (Entity × Aabb)} {t : BvhNode}
    (h : split_node l = .ok t) : (leafPairs t).Perm l := by
  obtain ⟨t', ht', hp, _⟩ := split_node_main l (split_node_ok_ne_nil h)
  rw [h] at ht'
  injection ht' with ht'
  rw [ht']
  exact hp

theorem numLeaves_pos : ∀ n : BvhNode, 1 ≤ n.numLeaves
  | .leaf _ _ => le_refl 1
  | .branch _ l r => by
      have := numLeaves_pos l
      simp [BvhNode.numLeaves]
      omega

theorem size_eq_two_numLeaves : ∀ n : BvhNode, n.size = 2 * n.numLeaves - 1
  | .leaf _ _ => rfl
  | .branch _ l r => by
      have hl := size_eq_two_numLeaves l
      have hr := size_eq_two_numLeaves r
      have hpl := numLeaves_pos l
      have hpr := numLeaves_pos r
      simp [BvhNode.size, BvhNode.numLeaves, hl, hr]
      omega

theorem numLeaves_eq_leafPairs_length : ∀ n : BvhNode, n.numLeaves = (leafPairs n).length
  | .leaf _ _ => rfl
  | .branch _ l r => by
      simp [BvhNode.numLeaves, leafPairs,
        numLeaves_eq_leafPairs_length l, numLeaves_eq_leafPairs_length r]

/-- Flattening always completes and appends exactly `size` records. -/
theorem push_length (resolver : Entity → Option Int) :
    ∀ (n : BvhNode) (buf : List GpuNode),
      (push_node_to_buffer resolver n buf).length = buf.length + n.size
  | .leaf a e, buf => by
      simp [push_node_to_buffer, BvhNode.size]
  | .branch a l r, buf => by
      simp only [push_node_to_buffer, List.length_set]
      rw [push_length resolver r, push_length resolver l]
      simp [BvhNode.size]
      omega

/-- Flattening only appends: it never touches records before the
buffer it was handed. -/
theorem push_get_lt (resolver : Entity → Option Int) :
    ∀ (n : BvhNode) (buf : List GpuNode) (i : Nat), i < buf.length →
      (push_node_to_buffer resolver n buf)[i]? = buf[i]?
  | .leaf a e, buf, i, hi => by
      simp only [push_node_to_buffer]
      exact List.getElem?_append_left hi
  | .branch a l r, buf, i, hi => by
      simp only [push_node_to_buffer]
      rw [List.getElem?_set_ne (Nat.ne_of_lt hi).symm]
      rw [push_get_lt resolver r _ i (by rw [push_length]; simp; omega)]
      rw [push_get_lt resolver l _ i (by simp; omega)]
      exact List.getElem?_append_left hi

/-- The record at offset `k` of the pre-order serialization of `n`
is the emitted record of the subtree rooted at that offset. -/
theorem push_get_preorder (resolver : Entity → Option Int) :
    ∀ (n : BvhNode) (buf : List GpuNode) (k : Nat) (m : BvhNode),
      preorderAt n k = some m →
      (push_node_to_buffer resolver n buf)[buf.length + k]?
        = some (emittedRecord resolver (buf.length + k) m)
  | .leaf a e, buf, 0, m, hm => by
      injection hm with hm
      subst hm
      simp only [push_node_to_buffer, Nat.add_zero, emittedRecord]
      exact List.getElem?_concat_length buf _
  | .leaf a e, buf, k + 1, m, hm => by
      simp [preorderAt] at hm
  | .branch a l r, buf, 0, m, hm => by
      injection hm with hm
      subst hm
      have e1 : (buf ++ [(⟨a.min, a.max, 0, 0⟩ : GpuNode)]).length = buf.length + 1 := by
        simp
      have e2 : (push_node_to_buffer resolver l
          (buf ++ [(⟨a.min, a.max, 0, 0⟩ : GpuNode)])).length = buf.length + 1 + l.size := by
        rw [push_length, e1]
      have e3 : (push_node_to_buffer resolver r (push_node_to_buffer resolver l
          (buf ++ [(⟨a.min, a.max, 0, 0⟩ : GpuNode)]))).length
          = buf.length + 1 + l.size + r.size := by
        rw [push_length, e2]
      simp only [push_node_to_buffer, Nat.add_zero]
      rw [List.getElem?_set_self (by rw [e3]; omega), e1, e2, emittedRecord]
  | .branch a l r, buf, k + 1, m, hm => by
      simp only [preorderAt] at hm
      have e1 : (buf ++ [(⟨a.min, a.max, 0, 0⟩ : GpuNode)]).length = buf.length + 1 := by
        simp
      have e2 : (push_node_to_buffer resolver l
          (buf ++ [(⟨a.min, a.max, 0, 0⟩ : GpuNode)])).length = buf.length + 1 + l.size := by
        rw [push_length, e1]
      by_cases hk : k < l.size
      · rw [if_pos hk] at hm
        simp only [push_node_to_buffer]
        rw [List.getElem?_set_ne (by omega)]
        rw [push_get_lt resolver r _ (buf.length + (k + 1)) (by rw [e2]; omega)]
        have hidx : buf.length + (k + 1)
            = (buf ++ [(⟨a.min, a.max, 0, 0⟩ : GpuNode)]).length + k := by
          rw [e1]
          omega
        rw [hidx]
        exact push_get_preorder resolver l _ k m hm
      · rw [if_neg hk] at hm
        simp only [push_node_to_buffer]
        rw [List.getElem?_set_ne (by omega)]
        have hidx : buf.length + (k + 1)
            = (push_node_to_buffer resolver l
                (buf ++ [(⟨a.min, a.max, 0, 0⟩ : GpuNode)])).length + (k - l.size) := by
          rw [e2]
          omega
        rw [hidx]
        exact push_get_preorder resolver r _ (k - l.size) m hm

theorem mergeSeed_wf (p : Entity × Aabb) : (mergeSeed p).wellFormed :=
  ⟨min_le_max, min_le_max, min_le_max⟩

theorem mergeStep_wf (acc : Aabb) (q : Entity × Aabb) (h : acc.wellFormed) :
    (mergeStep acc q).wellFormed := by
  obtain ⟨h1, h2, h3⟩ := h
  exact ⟨le_trans (min_le_left _ _) (le_trans h1 (le_max_left _ _)),
    le_trans (min_le_left _ _) (le_trans h2 (le_max_left _ _)),
    le_trans (min_le_left _ _) (le_trans h3 (le_max_left _ _))⟩

theorem foldl_mergeStep_wf (rest : List (Entity × Aabb)) :
    ∀ acc : Aabb, acc.wellFormed → (rest.foldl mergeStep acc).wellFormed := by
  induction rest with
  | nil => intro acc h; exact h
  | cons q rest ih =>
      intro acc h
      rw [List.foldl_cons]
      exact ih _ (mergeStep_wf acc q h)

/- ------------------------------------------------------------------ -/
/- Claim theorems                                                      -/
/- ------------------------------------------------------------------ -/

/-- C1: for every non-empty input list of (id, AABB) pairs (whose
boxes satisfy the documented `min ≤ max` precondition), every node of
the tree returned by `split_node` has an AABB equal to the exact
componentwise min/max union of the AABBs of all leaves in its subtree. -/
theorem claim_C1 (l : List (Entity × Aabb)) (t : BvhNode)
    (hwf : ∀ p ∈ l, p.2.wellFormed) (h : split_node l = .ok t) :
    ∀ n ∈ allNodes t, unionList (leafBoxes n) = some n.aabb := by
  obtain ⟨t', ht', _, hinv⟩ := split_node_main l (split_node_ok_ne_nil h)
  rw [h] at ht'
  injection ht' with ht'
  subst ht'
  exact hinv hwf

theorem claim_C1_witness : unionList (leafBoxes exTree) = some exTree.aabb :=
  claim_C1 exInput exTree (by decide!) (by decide!) exTree (by decide!)

/-- C2: for every input list of `N ≥ 1` pairs and every resolver, the
flat array produced by flattening the built tree has length exactly
`2N - 1`. -/
theorem claim_C2 (l : List (Entity × Aabb)) (t : BvhNode)
    (resolver : Entity → Option Int) (h : split_node l = .ok t) :
    (push_node_to_buffer resolver t []).length = 2 * l.length - 1 := by
  have hp := split_node_leafPairs_perm h
  have hlen : t.numLeaves = l.length := by
    rw [numLeaves_eq_leafPairs_length, hp.length_eq]
  rw [push_length, size_eq_two_numLeaves, hlen]
  simp

theorem claim_C2_witness :
    (push_node_to_buffer missResolver exTree []).length = 2 * exInput.length - 1 :=
  claim_C2 exInput exTree missResolver (by decide!)

/-- C3: every branch record emitted at index `k` of the flattened
output satisfies `left > k`, `right > k`, and
`right = left + (2m - 1)` where `m` is the number of leaves of the left
subtree (in fact `left = k + 1` exactly). -/
theorem claim_C3 (resolver : Entity → Option Int) (t : BvhNode) (k : Nat)
    (a : Aabb) (lc rc : BvhNode)
    (h : preorderAt t k = some (.branch a lc rc)) :
    ∃ g : GpuNode, (push_node_to_buffer resolver t [])[k]? = some g ∧
      (k : Int) < g.left ∧ (k : Int) < g.right ∧
      g.left = ((k + 1 : Nat) : Int) ∧
      g.right = g.left + ((2 * lc.numLeaves - 1 : Nat) : Int) := by
  have hg := push_get_preorder resolver t [] k _ h
  simp only [List.length_nil, Nat.zero_add] at hg
  have hpos := numLeaves_pos lc
  refine ⟨_, hg, ?_, ?_, ?_, ?_⟩ <;>
    · simp [emittedRecord, size_eq_two_numLeaves]
      try omega

theorem claim_C3_witness :
    ∃ g : GpuNode, (push_node_to_buffer missResolver exTree [])[0]? = some g ∧
      ((0 : Nat) : Int) < g.left ∧ ((0 : Nat) : Int) < g.right ∧
      g.left = ((0 + 1 : Nat) : Int) ∧
      g.right = g.left + ((2 * (BvhNode.leaf boxB 1).numLeaves - 1 : Nat) : Int) :=
  claim_C3 missResolver exTree 0 ⟨⟨0, 0, -3⟩, ⟨3, 3, 1⟩⟩ (.leaf boxB 1) (.leaf boxA 0)
    (by decide!)

/-- C4, counterexample: on `exInput` all three per-axis best costs are
equal, yet the axis chosen by the code's `if`/`else if`/`else` chain is
z, not x (and the built tree indeed splits along z: the leaf of `boxB`,
whose z-centroid is smaller, is serialized first). This refutes the
claim's tie-break "in favor of the earlier axis, x when all equal". -/
theorem claim_C4_counterexample :
    (find_split_index_and_cost (sortByCentroid .x exInput)).2
        = (find_split_index_and_cost (sortByCentroid .y (sortByCentroid .x exInput))).2 ∧
    (find_split_index_and_cost (sortByCentroid .y (sortByCentroid .x exInput))).2
        = (find_split_index_and_cost
            (sortByCentroid .z (sortByCentroid .y (sortByCentroid .x exInput)))).2 ∧
    chooseAxis (find_split_index_and_cost (sortByCentroid .x exInput)).2
        (find_split_index_and_cost (sortByCentroid .y (sortByCentroid .x exInput))).2
        (find_split_index_and_cost
          (sortByCentroid .z (sortByCentroid .y (sortByCentroid .x exInput)))).2
      = Axis.z ∧
    split_node exInput = .ok exTree := by
  refine ⟨?_, ?_, ?_, ?_⟩ <;> decide!

/-- C4, amended: the chosen axis always attains the smallest of the
three per-axis best costs, but ties are broken in favor of the LATER
axis: x is chosen only when strictly cheaper than both y and z, y only
when no cheaper than x but strictly cheaper than z, and z otherwise —
in particular, when all three best costs are equal, z is chosen. -/
theorem claim_C4_amended (xc yc zc : WithTop ℚ) :
    axisCost (chooseAxis xc yc zc) xc yc zc ≤ xc ∧
    axisCost (chooseAxis xc yc zc) xc yc zc ≤ yc ∧
    axisCost (chooseAxis xc yc zc) xc yc zc ≤ zc ∧
    (chooseAxis xc yc zc = .x → xc < yc ∧ xc < zc) ∧
    (chooseAxis xc yc zc = .y → yc ≤ xc ∧ yc < zc) ∧
    (chooseAxis xc yc zc = .z → zc ≤ xc ∧ zc ≤ yc) ∧
    (xc = yc → yc = zc → chooseAxis xc yc zc = .z) := by
  unfold chooseAxis
  split_ifs with h1 h2
  · obtain ⟨ha, hb⟩ := h1
    exact ⟨le_refl _, le_of_lt ha, le_of_lt hb, fun _ => ⟨ha, hb⟩,
      fun h => by simp at h, fun h => by simp at h,
      fun hxy _ => absurd (hxy ▸ ha) (lt_irrefl _)⟩
  · have hyx : yc ≤ xc := by
      rcases lt_or_ge xc yc with hxy | hxy
      · exact absurd ⟨hxy, lt_trans hxy h2⟩ h1
      · exact hxy
    exact ⟨hyx, le_refl _, le_of_lt h2, fun h => by simp at h,
      fun _ => ⟨hyx, h2⟩, fun h => by simp at h,
      fun _ hyz => absurd (hyz ▸ h2) (lt_irrefl _)⟩
  · have hzy : zc ≤ yc := not_lt.mp h2
    have hzx : zc ≤ xc := by
      rcases lt_or_ge xc zc with hxz | hxz
      · have hyx : yc ≤ xc := le_of_not_lt (fun hxy => h1 ⟨hxy, hxz⟩)
        exact absurd (lt_of_lt_of_le hxz (le_trans hzy hyx)) (lt_irrefl _)
      · exact hxz
    exact ⟨hzx, hzy, le_refl _, fun h => by simp at h, fun h => by simp at h,
      fun _ => ⟨hzx, hzy⟩, fun _ _ => rfl⟩

theorem claim_C4_amended_witness : axisCost (chooseAxis 1 2 3) 1 2 3 ≤ 1 :=
  (claim_C4_amended 1 2 3).1

/-- C5: on any working list of length `N ≥ 2`, the per-axis split
selection returns an index in `[1, N-1]` together with its cost
`surfaceArea(merge(first i)) * i + surfaceArea(merge(last N-i)) * (N-i)`,
that cost is the minimum over `i = 1 .. N-1`, and every strictly
earlier candidate has strictly larger cost (the first index attaining
the minimum wins ties). -/
theorem claim_C5 (l : List (Entity × Aabb)) (h2 : 2 ≤ l.length) :
    1 ≤ (find_split_index_and_cost l).1 ∧
    (find_split_index_and_cost l).1 ≤ l.length - 1 ∧
    (find_split_index_and_cost l).2
      = ((cost l (find_split_index_and_cost l).1 : ℚ) : WithTop ℚ) ∧
    (∀ j, 1 ≤ j → j ≤ l.length - 1 →
      cost l (find_split_index_and_cost l).1 ≤ cost l j) ∧
    (∀ j, 1 ≤ j → j < (find_split_index_and_cost l).1 →
      cost l (find_split_index_and_cost l).1 < cost l j) ∧
    (∀ j, 1 ≤ j → j ≤ l.length - 1 → ∃ la ra,
      merge_aabbs (l.take j) = .ok la ∧ merge_aabbs (l.drop j) = .ok ra ∧
      cost l j = la.total_surface_area * (j : ℚ)
        + ra.total_surface_area * ((l.length - j : Nat) : ℚ)) := by
  obtain ⟨c1, c2, c3, c4, c5⟩ := find_split_spec l h2
  refine ⟨c1, c2, c3, c4, c5, ?_⟩
  intro j hj1 hj2
  obtain ⟨la, hla⟩ := merge_aabbs_ok
    (l := l.take j) (List.length_pos.mp (by rw [List.length_take]; omega))
  obtain ⟨ra, hra⟩ := merge_aabbs_ok
    (l := l.drop j) (List.length_pos.mp (by rw [List.length_drop]; omega))
  refine ⟨la, ra, hla, hra, ?_⟩
  unfold cost
  rw [hla, hra]

theorem claim_C5_witness : 1 ≤ (find_split_index_and_cost exInput).1 :=
  (claim_C5 exInput (by decide!)).1

/-- C6: invoking the builder on an empty input fails loudly — the
`assert!(aabbs.len() > 0)` in `split_node` aborts (modelled as the
`emptyInput` error) — and the update pass never fabricates a
degenerate tree from an empty object list (`update_bvh` returns
without building, keeping the previous tree). -/
theorem claim_C6 :
    split_node [] = .error .emptyInput ∧ update_bvh [] = none :=
  ⟨rfl, rfl⟩

/-- C7, counterexample: `invInput` contains a box with inverted bounds
(`min > max` on every component), yet `split_node` succeeds — there is
no `InvalidBound` detection anywhere in the builder. -/
theorem claim_C7_counterexample :
    (∃ p ∈ invInput, ¬ p.2.wellFormed) ∧ (split_node invInput).isOk = true :=
  ⟨by decide!, by decide!⟩

/-- C7, amended: the builder performs no inverted-bounds detection: an
input box with inverted bounds (`min > max` on some component, all
coordinates finite) is never rejected with an error — the build
succeeds on every nonempty input with finite coordinates, inverted
boxes included, and they are silently normalized inside `merge_aabbs`
(see C10). Since coordinates are ℚ here, this theorem's quantification
over all inputs covers exactly the finite-bounds case; it says nothing
about non-finite bounds, where the source aborts inside `merge_aabbs`'
length asserts (still not a pre-merge `InvalidBound` detection). -/
theorem claim_C7_amended (l : List (Entity × Aabb)) (hne : l ≠ []) :
    ∃ t, split_node l = .ok t := by
  obtain ⟨t, ht, _, _⟩ := split_node_main l hne
  exact ⟨t, ht⟩

theorem claim_C7_amended_witness : ∃ t, split_node invInput = .ok t :=
  claim_C7_amended invInput (by decide!)

/-- C8: a resolver miss for a leaf's id yields that leaf's record with
`right = -1` (and `left = -1`), and the flatten pass over the whole
tree still completes, emitting all `size` records. -/
theorem claim_C8 (resolver : Entity → Option Int) (t : BvhNode) (k : Nat)
    (a : Aabb) (e : Entity)
    (hmiss : resolver e = none) (h : preorderAt t k = some (.leaf a e)) :
    (push_node_to_buffer resolver t [])[k]? = some ⟨a.min, a.max, -1, -1⟩ ∧
    (push_node_to_buffer resolver t []).length = t.size := by
  have hg := push_get_preorder resolver t [] k _ h
  simp only [List.length_nil, Nat.zero_add] at hg
  constructor
  · rw [hg]
    simp [emittedRecord, hmiss]
  · rw [push_length]
    simp

theorem claim_C8_witness :
    (push_node_to_buffer missResolver exTree [])[1]? = some ⟨boxB.min, boxB.max, -1, -1⟩ ∧
    (push_node_to_buffer missResolver exTree []).length = exTree.size :=
  claim_C8 missResolver exTree 1 boxB 1 rfl (by decide!)

/-- C9: merging an empty set of AABBs fails — the infinite fold seed
survives and the `assert_ne!(min.length(), f32::INFINITY)` fires
(modelled as the `emptyInput` error), so no infinite box is returned. -/
theorem claim_C9 : merge_aabbs [] = .error .emptyInput :=
  rfl

/-- C10: on every nonempty input, `merge_aabbs` returns a box with
`min ≤ max` componentwise, even when some input box is inverted: both
corners of each input box are folded symmetrically into both
accumulators, silently normalizing inverted boxes. -/
theorem claim_C10 (p : Entity × Aabb) (rest : List (Entity × Aabb)) (r : Aabb)
    (h : merge_aabbs (p :: rest) = .ok r) : r.wellFormed := by
  injection h with h
  rw [← h]
  exact foldl_mergeStep_wf rest (mergeSeed p) (mergeSeed_wf p)

theorem claim_C10_witness : Aabb.wellFormed ⟨⟨0, 0, 0⟩, ⟨1, 2, 3⟩⟩ :=
  claim_C10 (0, invBox) [] ⟨⟨0, 0, 0⟩, ⟨1, 2, 3⟩⟩ (by decide!)

end BlobBvh
